import Mathlib

/-!
Verification of the chunking subsystem of the merk Merkle key-value store
(src/merk/chunks.rs).  The producer and iterator are embedded directly from
the source; the external collaborators (proof operations, the sorted rocksdb
cursor, the trunk walk and the leaf chunk builder) live outside the file
under verification and are modelled from the specification, as marked on
each definition.  Keys are taken from an arbitrary linear order (the source
uses byte strings under the lexicographic order); values are an arbitrary
type.  A Rust panic is modelled as the value none of an Option-typed result;
a recoverable Result error is modelled with Except.
-/

namespace MerkChunks

variable {K V : Type}

/-- Modelled from the spec: a node pushed by a proof operation is a hash, a
key-value hash, or a key-value entry (the source crate matches on push of a
KV node when collecting boundary keys). -/
inductive Node (K V : Type) where
  | hash (h : Nat)
  | kvhash (h : Nat)
  | kv (key : K) (value : V)
deriving DecidableEq

/-- Modelled from the spec: a proof operation either pushes a node or
ascends/combines (the Parent and Child operations of the source crate). -/
inductive Op (K V : Type) where
  | push (n : Node K V)
  | parent
  | child
deriving DecidableEq

/-- The recoverable error kinds of the chunk producer: the out-of-bounds
error raised by chunk, and a failure of the leaf chunk builder (I/O or
corruption while scanning entries). -/
inductive MerkError where
  | indexOutOfBounds
  | chunkBuildFailure
deriving DecidableEq

/-- Modelled from the spec: a seekable cursor over the key-ordered snapshot
contents of the store (DBRawIterator in the source).  entries lists the
snapshot in key order; a value of none models an entry whose stored bytes
fail to decode, the failure source of ChunkBuildFailure.  A position at or
beyond the length of entries models an invalid (exhausted) cursor. -/
structure Cursor (K V : Type) where
  entries : List (K × Option V)
  pos : Nat
deriving DecidableEq

/-- Modelled from the spec: reposition the cursor at the first entry. -/
def Cursor.seekToFirst (c : Cursor K V) : Cursor K V :=
  { c with pos := 0 }

/-- Modelled from the spec: seek positions the cursor at the first entry
whose key is at or past the target key (rocksdb seek semantics). -/
def Cursor.seek [LinearOrder K] (c : Cursor K V) (key : K) : Cursor K V :=
  { c with pos := c.entries.findIdx (fun e => key ≤ e.1) }

/-- Modelled from the spec: advance the cursor one step. -/
def Cursor.next (c : Cursor K V) : Cursor K V :=
  { c with pos := c.pos + 1 }

/-- Modelled from the spec: loop of the external leaf chunk builder
(get_next_chunk in the source crate), acting on the list of entries at and
after the cursor.  It walks the entries, emitting a proof operation per
decoded entry, stopping at the entry whose key equals the end key; that
boundary entry is skipped, so the cursor is left just past the produced
range, as the cursor invariant of the spec requires.  With no end key it
consumes every remaining entry.  A non-decodable entry aborts with
ChunkBuildFailure, leaving the cursor on the offending entry.  Returns the
outcome together with the number of entries the cursor advanced over. -/
def gncList [DecidableEq K] : List (K × Option V) → Option K →
    Except MerkError (List (Op K V)) × Nat
  | [], _ => (Except.ok [], 0)
  | (k, v) :: rest, endKey =>
    if endKey = some k then
      (Except.ok [], 1)
    else
      match v with
      | none => (Except.error MerkError.chunkBuildFailure, 0)
      | some val =>
        match gncList rest endKey with
        | (Except.ok ops, n) => (Except.ok (Op.push (Node.kv k val) :: ops), n + 1)
        | (Except.error e, n) => (Except.error e, n + 1)

/-- Modelled from the spec: the external leaf chunk builder, taking the
cursor and an optional exclusive end key, producing the proof operations of
the leaf entries of that range and advancing the cursor past the range. -/
def getNextChunk [DecidableEq K] (c : Cursor K V) (endKey : Option K) :
    Except MerkError (List (Op K V)) × Cursor K V :=
  match gncList (c.entries.drop c.pos) endKey with
  | (res, n) => (res, { c with pos := c.pos + n })

/-- The chunk producer, embedded from the ChunkProducer struct of the
source: the trunk operations, the boundary keys, the raw cursor and the
sequential index. -/
structure ChunkProducer (K V : Type) where
  trunk : List (Op K V)
  chunk_boundaries : List K
  raw_iter : Cursor K V
  index : Nat
deriving DecidableEq

/-- Embedded from ChunkProducer::new.  The external trunk walk is
abstracted as its outcome walkRes: for a nonempty tree the walker returns
the trunk operations and the has_more elision flag, for an empty tree it
returns empty operations and false, and a failing walk is the error case,
which new propagates.  entries is the key-ordered snapshot content the raw
cursor iterates over; the fresh cursor is positioned by seek_to_first. -/
def ChunkProducer.new (walkRes : Except Unit (List (Op K V) × Bool))
    (entries : List (K × Option V)) : Except Unit (ChunkProducer K V) :=
  match walkRes with
  | Except.error e => Except.error e
  | Except.ok (trunk, has_more) =>
    let chunk_boundaries : List K :=
      if has_more then
        trunk.filterMap (fun op =>
          match op with
          | Op.push (Node.kv key _) => some key
          | _ => none)
      else []
    Except.ok
      { trunk := trunk
        chunk_boundaries := chunk_boundaries
        raw_iter := Cursor.seekToFirst { entries := entries, pos := 0 }
        index := 0 }

/-- Embedded from ChunkProducer::len. -/
def ChunkProducer.len (p : ChunkProducer K V) : Nat :=
  let boundaries_len := p.chunk_boundaries.length
  if boundaries_len = 0 then 1 else boundaries_len + 2

/-- Embedded from ChunkProducer::next_chunk.  The panic on an index at or
past the end is modelled as the result none; a some result carries the
chunk outcome (serialized as its operation list, the encoding being a fixed
reversible external function) and the updated producer. -/
def ChunkProducer.nextChunk [DecidableEq K] (p : ChunkProducer K V) :
    Option (Except MerkError (List (Op K V)) × ChunkProducer K V) :=
  if p.index = 0 then
    some (Except.ok p.trunk, { p with index := p.index + 1 })
  else if p.index ≥ p.len then
    none
  else
    let end_key := p.chunk_boundaries.get? (p.index - 1)
    let p1 := { p with index := p.index + 1 }
    match getNextChunk p1.raw_iter end_key with
    | (chunkRes, iter) => some (chunkRes, { p1 with raw_iter := iter })

/-- Embedded from ChunkProducer::chunk.  Out of bounds indices give the
recoverable IndexOutOfBounds error and leave the producer untouched; a
valid index stores the index, repositions the cursor (seek_to_first for
indices 0 and 1, seek to the preceding boundary key then one advance for
larger indices) and delegates to next_chunk.  The unwrap of the boundary
key and the panic branch of next_chunk are modelled as the result none. -/
def ChunkProducer.chunk [LinearOrder K] (p : ChunkProducer K V) (index : Nat) :
    Option (Except MerkError (List (Op K V)) × ChunkProducer K V) :=
  if index ≥ p.len then
    some (Except.error MerkError.indexOutOfBounds, p)
  else
    let p1 := { p with index := index }
    let iterOpt : Option (Cursor K V) :=
      if index = 0 ∨ index = 1 then
        some p1.raw_iter.seekToFirst
      else
        match p1.chunk_boundaries.get? (index - 2) with
        | none => none
        | some preceding_key => some ((p1.raw_iter.seek preceding_key).next)
    match iterOpt with
    | none => none
    | some it => ChunkProducer.nextChunk { p1 with raw_iter := it }

/-- The chunk iterator, embedded from the ChunkIter newtype wrapping a
producer. -/
structure ChunkIter (K V : Type) where
  producer : ChunkProducer K V
deriving DecidableEq

/-- Embedded from the Iterator impl of ChunkIter: once the index reaches
the length the iterator yields the inner none forever; otherwise it yields
the outcome of next_chunk.  The outer Option models the possibility of a
panic inside next_chunk (never reached, see the safety theorem). -/
def ChunkIter.next [DecidableEq K] (it : ChunkIter K V) :
    Option (Option (Except MerkError (List (Op K V))) × ChunkIter K V) :=
  if it.producer.index ≥ it.producer.len then
    some (none, it)
  else
    match it.producer.nextChunk with
    | none => none
    | some (res, p) => some (some res, ChunkIter.mk p)

/-- Embedded from the size_hint of the Iterator impl of ChunkIter: the
total chunk count as both bounds. -/
def ChunkIter.sizeHint (it : ChunkIter K V) : Nat × Option Nat :=
  (it.producer.len, some it.producer.len)

/-- One totalized iteration step: the payload of ChunkIter.next.  The
defaulted branch is the panic case of next, proved unreachable by the
safety theorem, so step agrees with next everywhere. -/
def ChunkIter.step [DecidableEq K] (it : ChunkIter K V) :
    Option (Except MerkError (List (Op K V))) × ChunkIter K V :=
  match it.next with
  | some r => r
  | none => (none, it)

/-- The iterator state after n pulls. -/
def ChunkIter.stepN [DecidableEq K] (it : ChunkIter K V) : Nat → ChunkIter K V
  | 0 => it
  | n + 1 => ((ChunkIter.stepN it n).step).2

/-- The item yielded by the iterator on its i-th pull (counting from 0):
none once the iterator is exhausted, otherwise the chunk outcome. -/
def ChunkIter.itemAt [DecidableEq K] (it : ChunkIter K V) (i : Nat) :
    Option (Except MerkError (List (Op K V))) :=
  ((it.stepN i).step).1

/-- The chunk outcome of a random-access call, without the updated state. -/
def chunkBytes [LinearOrder K] (p : ChunkProducer K V) (i : Nat) :
    Option (Except MerkError (List (Op K V))) :=
  (p.chunk i).map Prod.fst

/-- The producer state after a random-access call (unchanged when the call
hits the modelled panic, which never happens). -/
def chunkStep [LinearOrder K] (p : ChunkProducer K V) (i : Nat) : ChunkProducer K V :=
  match p.chunk i with
  | some r => r.2
  | none => p

/-- The producer state after a sequence of random-access calls. -/
def chunkCalls [LinearOrder K] (p : ChunkProducer K V) (calls : List Nat) :
    ChunkProducer K V :=
  calls.foldl chunkStep p

/-- Spec-words rendering for the boundary derivation: the keys of the
push-node operations of the trunk, in the order they occur in the trunk. -/
def pushNodeKeysSpec : List (Op K V) → List K
  | [] => []
  | Op.push (Node.kv key _) :: rest => key :: pushNodeKeysSpec rest
  | _ :: rest => pushNodeKeysSpec rest

/-- Well-formedness of a producer over a real snapshot: the snapshot keys
are strictly ascending, the boundary keys are strictly ascending, every
boundary key is a key of the snapshot (boundary keys come from key-value
nodes of the trunk, which are tree entries), and every entry decodes (no
I/O failure). -/
abbrev WF [LinearOrder K] (p : ChunkProducer K V) : Prop :=
  (p.raw_iter.entries.map Prod.fst).Pairwise (· < ·) ∧
  p.chunk_boundaries.Pairwise (· < ·) ∧
  (∀ b ∈ p.chunk_boundaries, b ∈ p.raw_iter.entries.map Prod.fst) ∧
  (∀ e ∈ p.raw_iter.entries, e.2.isSome = true)

/-- The cursor position at which the key range of chunk i begins: the start
of the snapshot for the trunk chunk and the first leaf chunk, one step past
the preceding boundary key for later leaf chunks, and the end of the
snapshot once the boundary keys are exhausted. -/
def rangeStart [LinearOrder K] (entries : List (K × Option V)) (bounds : List K)
    (i : Nat) : Nat :=
  if i ≤ 1 then 0
  else
    match bounds.get? (i - 2) with
    | some b => entries.findIdx (fun e => b ≤ e.1) + 1
    | none => entries.length


deriving instance DecidableEq for Except

/-- A five-entry snapshot, keyed 1 to 5, used by the concrete witnesses. -/
def sampleEntries : List (Nat × Option Nat) :=
  [(1, some 10), (2, some 20), (3, some 30), (4, some 40), (5, some 50)]

/-- A trunk whose push-node keys are 2 and 4, in order. -/
def sampleTrunk : List (Op Nat Nat) :=
  [Op.push (Node.kv 2 20), Op.parent, Op.push (Node.kv 4 40)]

/-- A freshly constructed witness producer with two boundary keys, hence
four chunks. -/
def sampleProducer : ChunkProducer Nat Nat :=
  { trunk := sampleTrunk, chunk_boundaries := [2, 4],
    raw_iter := Cursor.mk sampleEntries 0, index := 0 }

/-- The invariant state of the witness producer before chunk 2. -/
def samplePre2 : ChunkProducer Nat Nat :=
  { trunk := sampleTrunk, chunk_boundaries := [2, 4],
    raw_iter := Cursor.mk sampleEntries 2, index := 2 }

/-- The witness producer state after chunk 2. -/
def samplePost : ChunkProducer Nat Nat :=
  { trunk := sampleTrunk, chunk_boundaries := [2, 4],
    raw_iter := Cursor.mk sampleEntries 4, index := 3 }

/-- A trunk-only witness producer over a one-entry snapshot. -/
def trunkOnlyProducer : ChunkProducer Nat Nat :=
  { trunk := [], chunk_boundaries := [],
    raw_iter := Cursor.mk [(1, some 1)] 0, index := 0 }


lemma len_pos (p : ChunkProducer K V) : 1 ≤ p.len := by
  by_cases h : p.chunk_boundaries.length = 0 <;> simp [ChunkProducer.len, h]

lemma findIdx_eq_of {α : Type} (p : α → Bool) (l : List α) (m : Nat) (hm : m < l.length)
    (hpm : p (l.get ⟨m, hm⟩) = true)
    (hlt : ∀ j (hj : j < m), p (l.get ⟨j, lt_trans hj hm⟩) = false) :
    l.findIdx p = m := by
  induction l generalizing m with
  | nil => simp at hm
  | cons a t ih =>
    cases m with
    | zero =>
      simp only [List.get] at hpm
      simp [List.findIdx_cons, hpm]
    | succ m' =>
      have ha : p a = false := hlt 0 (Nat.succ_pos _)
      simp only [List.findIdx_cons, ha, cond_false]
      have : t.findIdx p = m' := by
        apply ih
        · exact hpm
        · intro j hj
          exact hlt (j + 1) (Nat.succ_lt_succ hj)
      omega

lemma sorted_key_lt [LinearOrder K] (entries : List (K × Option V))
    (hs : (entries.map Prod.fst).Pairwise (· < ·))
    (j m : Nat) (hj : j < m) (hm : m < entries.length) :
    (entries.get ⟨j, lt_trans hj hm⟩).1 < (entries.get ⟨m, hm⟩).1 := by
  have hlen : (entries.map Prod.fst).length = entries.length := List.length_map _ _
  have := (List.pairwise_iff_get.mp hs) ⟨j, by omega⟩ ⟨m, by omega⟩ (by exact hj)
  simpa [List.get_map] using this

lemma seek_findIdx_eq [LinearOrder K] (entries : List (K × Option V)) (b : K)
    (hs : (entries.map Prod.fst).Pairwise (· < ·))
    (m : Nat) (hm : m < entries.length) (hbm : (entries.get ⟨m, hm⟩).1 = b) :
    entries.findIdx (fun e => b ≤ e.1) = m := by
  refine findIdx_eq_of _ entries m hm ?_ ?_
  · simp only [List.get_eq_getElem] at hbm
    simp [hbm]
  · intro j hj
    have h := sorted_key_lt entries hs j m hj hm
    rw [hbm] at h
    simp only [List.get_eq_getElem] at h
    simp [h, not_le.mpr h]


lemma gncList_nil [DecidableEq K] (endKey : Option K) :
    gncList ([] : List (K × Option V)) endKey = (Except.ok [], 0) := rfl

lemma gncList_stops_aux [LinearOrder K] (entries : List (K × Option V)) (b : K)
    (m : Nat) (hm : m < entries.length) (hbm : (entries.get ⟨m, hm⟩).1 = b)
    (hlt : ∀ j (hj : j < m), (entries.get ⟨j, lt_trans hj hm⟩).1 < b)
    (hh : ∀ e ∈ entries, e.2.isSome = true) :
    ∀ f q, f = m - q → q ≤ m →
      ∃ ops, gncList (entries.drop q) (some b) = (Except.ok ops, m - q + 1) := by
  intro f
  induction f with
  | zero =>
    intro q hf hq
    have hqm : q = m := by omega
    subst hqm
    have hdrop := List.drop_eq_get_cons (l := entries) hm
    rw [hdrop]
    have he : entries.get ⟨q, hm⟩ = (b, (entries.get ⟨q, hm⟩).2) := by
      cases hg : entries.get ⟨q, hm⟩ with
      | mk k v => simp only [hg] at hbm; simp [hbm]
    rw [he]
    refine ⟨[], ?_⟩
    simp [gncList]
  | succ f ih =>
    intro q hf hq
    have hqm : q < m := by omega
    have hqlen : q < entries.length := by omega
    have hdrop := List.drop_eq_get_cons (l := entries) hqlen
    rw [hdrop]
    have hkey : (entries.get ⟨q, hqlen⟩).1 < b := hlt q hqm
    have hmem : entries.get ⟨q, hqlen⟩ ∈ entries := List.get_mem entries q hqlen
    have hval : (entries.get ⟨q, hqlen⟩).2.isSome = true := hh _ hmem
    obtain ⟨val, hv⟩ := Option.isSome_iff_exists.mp hval
    have he : entries.get ⟨q, hqlen⟩ = ((entries.get ⟨q, hqlen⟩).1, some val) := by
      cases hg : entries.get ⟨q, hqlen⟩ with
      | mk k v => simp only [hg] at hv; simp [hv]
    obtain ⟨ops, hops⟩ := ih (q + 1) (by omega) (by omega)
    refine ⟨Op.push (Node.kv (entries.get ⟨q, hqlen⟩).1 val) :: ops, ?_⟩
    rw [he]
    have hne : (some b = some (entries.get ⟨q, hqlen⟩).1) = False := by
      simp only [Option.some.injEq, eq_iff_iff, iff_false]
      intro hb
      rw [← hb] at hkey
      exact lt_irrefl _ hkey
    simp only [gncList, hne, if_false, hops]
    have harith : m - (q + 1) + 1 + 1 = m - q + 1 := by omega
    rw [harith]

lemma gncList_none_all [DecidableEq K] (es : List (K × Option V))
    (hh : ∀ e ∈ es, e.2.isSome = true) :
    ∃ ops, gncList es (none : Option K) = (Except.ok ops, es.length) := by
  induction es with
  | nil => exact ⟨[], rfl⟩
  | cons e rest ih =>
    obtain ⟨k, v⟩ := e
    have hval : ((k, v) : K × Option V).2.isSome = true := hh _ (List.mem_cons_self _ _)
    obtain ⟨val, hv⟩ := Option.isSome_iff_exists.mp hval
    simp only at hv
    subst hv
    obtain ⟨ops, hops⟩ := ih (fun e he => hh e (List.mem_cons_of_mem _ he))
    refine ⟨Op.push (Node.kv k val) :: ops, ?_⟩
    simp [gncList, hops]

lemma gncList_ne_oob [DecidableEq K] (es : List (K × Option V)) (endKey : Option K) :
    (gncList es endKey).1 ≠ Except.error MerkError.indexOutOfBounds := by
  induction es with
  | nil => simp [gncList]
  | cons e rest ih =>
    obtain ⟨k, v⟩ := e
    by_cases hek : endKey = some k
    · simp [gncList, hek]
    · cases v with
      | none => simp [gncList, hek]
      | some val =>
        simp only [gncList, if_neg hek]
        cases hg : gncList rest endKey with
        | mk res n =>
          rw [hg] at ih
          cases res with
          | ok ops => simp
          | error e' =>
            simp only at ih ⊢
            intro hcon
            apply ih
            simp only [Except.error.injEq] at hcon
            rw [hcon]

lemma getNextChunk_entries [DecidableEq K] (c : Cursor K V) (e : Option K) :
    ((getNextChunk c e).2).entries = c.entries := by
  unfold getNextChunk
  cases gncList (c.entries.drop c.pos) e with
  | mk res n => rfl

lemma getNextChunk_stops [LinearOrder K] (entries : List (K × Option V)) (b : K) (q m : Nat)
    (hm : m < entries.length) (hbm : (entries.get ⟨m, hm⟩).1 = b)
    (hlt : ∀ j (hj : j < m), (entries.get ⟨j, lt_trans hj hm⟩).1 < b)
    (hh : ∀ e ∈ entries, e.2.isSome = true) (hq : q ≤ m) :
    ∃ ops, getNextChunk (Cursor.mk entries q) (some b) =
      (Except.ok ops, Cursor.mk entries (m + 1)) := by
  obtain ⟨ops, hops⟩ := gncList_stops_aux entries b m hm hbm hlt hh (m - q) q rfl hq
  refine ⟨ops, ?_⟩
  unfold getNextChunk
  simp only [hops]
  have : q + (m - q + 1) = m + 1 := by omega
  rw [this]

lemma getNextChunk_to_end [LinearOrder K] (entries : List (K × Option V)) (q : Nat)
    (hq : q ≤ entries.length) (hh : ∀ e ∈ entries, e.2.isSome = true) :
    ∃ ops, getNextChunk (Cursor.mk entries q) (none : Option K) =
      (Except.ok ops, Cursor.mk entries entries.length) := by
  obtain ⟨ops, hops⟩ := gncList_none_all (entries.drop q)
    (fun e he => hh e (List.mem_of_mem_drop he))
  refine ⟨ops, ?_⟩
  unfold getNextChunk
  simp only [hops, List.length_drop]
  have : q + (entries.length - q) = entries.length := by omega
  rw [this]

lemma bounds_get_valid (p : ChunkProducer K V) (i : Nat) (h2 : 2 ≤ i) (hi : i < p.len) :
    i - 2 < p.chunk_boundaries.length := by
  unfold ChunkProducer.len at hi
  by_cases h0 : p.chunk_boundaries.length = 0
  · simp only [h0, if_pos] at hi
    omega
  · simp only [if_neg h0] at hi
    omega

lemma nextChunk_eq_none_of_ge [DecidableEq K] (p : ChunkProducer K V)
    (h : p.len ≤ p.index) : p.nextChunk = none := by
  have hpos := len_pos p
  have h0 : ¬ p.index = 0 := by omega
  unfold ChunkProducer.nextChunk
  rw [if_neg h0, if_pos (by omega)]

lemma nextChunk_isSome_of_lt [DecidableEq K] (p : ChunkProducer K V)
    (h : p.index < p.len) : (p.nextChunk).isSome = true := by
  unfold ChunkProducer.nextChunk
  by_cases h0 : p.index = 0
  · rw [if_pos h0]
    rfl
  · rw [if_neg h0, if_neg (by omega)]
    cases getNextChunk p.raw_iter (p.chunk_boundaries.get? (p.index - 1)) with
    | mk res iter => rfl

lemma nextChunk_fields [DecidableEq K] {p p' : ChunkProducer K V}
    {r : Except MerkError (List (Op K V))} (h : p.nextChunk = some (r, p')) :
    p'.trunk = p.trunk ∧ p'.chunk_boundaries = p.chunk_boundaries ∧
    p'.raw_iter.entries = p.raw_iter.entries ∧ p'.index = p.index + 1 := by
  unfold ChunkProducer.nextChunk at h
  by_cases h0 : p.index = 0
  · rw [if_pos h0] at h
    simp only [Option.some.injEq, Prod.mk.injEq] at h
    rw [← h.2]
    exact ⟨rfl, rfl, rfl, rfl⟩
  · rw [if_neg h0] at h
    by_cases hge : p.index ≥ p.len
    · rw [if_pos hge] at h
      exact absurd h (by simp)
    · rw [if_neg hge] at h
      dsimp only at h
      cases hg : getNextChunk p.raw_iter (p.chunk_boundaries.get? (p.index - 1)) with
      | mk res iter =>
        rw [hg] at h
        simp only [Option.some.injEq, Prod.mk.injEq] at h
        rw [← h.2]
        refine ⟨rfl, rfl, ?_, rfl⟩
        have hent := getNextChunk_entries p.raw_iter (p.chunk_boundaries.get? (p.index - 1))
        rw [hg] at hent
        exact hent

lemma len_of_bounds_eq (p q : ChunkProducer K V)
    (h : q.chunk_boundaries = p.chunk_boundaries) : q.len = p.len := by
  unfold ChunkProducer.len
  rw [h]

lemma chunk_oob [LinearOrder K] (p : ChunkProducer K V) (i : Nat) (hi : p.len ≤ i) :
    p.chunk i = some (Except.error MerkError.indexOutOfBounds, p) := by
  unfold ChunkProducer.chunk
  rw [if_pos (by omega)]

lemma chunk_valid_eq [LinearOrder K] (p : ChunkProducer K V) (i : Nat) (hi : i < p.len) :
    p.chunk i = ChunkProducer.nextChunk
      { trunk := p.trunk, chunk_boundaries := p.chunk_boundaries,
        raw_iter := Cursor.mk p.raw_iter.entries (rangeStart p.raw_iter.entries p.chunk_boundaries i),
        index := i } := by
  unfold ChunkProducer.chunk
  rw [if_neg (by omega)]
  by_cases h01 : i = 0 ∨ i = 1
  · have hrs : rangeStart p.raw_iter.entries p.chunk_boundaries i = 0 := by
      unfold rangeStart
      rw [if_pos (by omega)]
    rw [hrs]
    simp only [if_pos h01]
    rfl
  · have h2 : 2 ≤ i := by omega
    have hlt : i - 2 < p.chunk_boundaries.length := bounds_get_valid p i h2 hi
    have hget : p.chunk_boundaries.get? (i - 2) =
        some (p.chunk_boundaries.get ⟨i - 2, hlt⟩) := List.get?_eq_get hlt
    have hrs : rangeStart p.raw_iter.entries p.chunk_boundaries i =
        p.raw_iter.entries.findIdx
          (fun e => p.chunk_boundaries.get ⟨i - 2, hlt⟩ ≤ e.1) + 1 := by
      unfold rangeStart
      rw [if_neg (by omega), hget]
    rw [hrs]
    simp only [if_neg h01, hget]
    rfl

lemma chunk_isSome [LinearOrder K] (p : ChunkProducer K V) (i : Nat) :
    (p.chunk i).isSome = true := by
  by_cases hi : i < p.len
  · rw [chunk_valid_eq p i hi]
    exact nextChunk_isSome_of_lt _ hi
  · rw [chunk_oob p i (by omega)]
    rfl

lemma chunk_fields [LinearOrder K] {p p' : ChunkProducer K V}
    {r : Except MerkError (List (Op K V))} {i : Nat} (h : p.chunk i = some (r, p')) :
    p'.trunk = p.trunk ∧ p'.chunk_boundaries = p.chunk_boundaries ∧
    p'.raw_iter.entries = p.raw_iter.entries := by
  by_cases hi : i < p.len
  · rw [chunk_valid_eq p i hi] at h
    have hf := nextChunk_fields h
    exact ⟨hf.1, hf.2.1, hf.2.2.1⟩
  · rw [chunk_oob p i (by omega)] at h
    simp only [Option.some.injEq, Prod.mk.injEq] at h
    rw [← h.2]
    exact ⟨rfl, rfl, rfl⟩

lemma key_index_of_mem [LinearOrder K] (entries : List (K × Option V)) (b : K)
    (hb : b ∈ entries.map Prod.fst) :
    ∃ (m : Nat) (hm : m < entries.length), (entries.get ⟨m, hm⟩).1 = b := by
  obtain ⟨j, hj⟩ := List.mem_iff_get.mp hb
  have hm : j.1 < entries.length := by
    have h2 := j.2
    simpa [List.length_map] using h2
  refine ⟨j.1, hm, ?_⟩
  rw [List.get_map] at hj
  exact hj

lemma seek_spec [LinearOrder K] (entries : List (K × Option V)) (b : K)
    (hs : (entries.map Prod.fst).Pairwise (· < ·)) (hb : b ∈ entries.map Prod.fst) :
    ∃ (hm : entries.findIdx (fun e => b ≤ e.1) < entries.length),
      (entries.get ⟨entries.findIdx (fun e => b ≤ e.1), hm⟩).1 = b ∧
      ∀ j (hj : j < entries.findIdx (fun e => b ≤ e.1)),
        (entries.get ⟨j, lt_trans hj hm⟩).1 < b := by
  obtain ⟨m, hm, hkey⟩ := key_index_of_mem entries b hb
  have hf : entries.findIdx (fun e => b ≤ e.1) = m := seek_findIdx_eq entries b hs m hm hkey
  subst hf
  refine ⟨hm, hkey, ?_⟩
  intro j hj
  have := sorted_key_lt entries hs j _ hj hm
  rw [hkey] at this
  exact this

lemma seek_mono [LinearOrder K] (entries : List (K × Option V)) (b b' : K)
    (hs : (entries.map Prod.fst).Pairwise (· < ·))
    (hb : b ∈ entries.map Prod.fst) (hb' : b' ∈ entries.map Prod.fst) (hlt : b < b') :
    entries.findIdx (fun e => b ≤ e.1) < entries.findIdx (fun e => b' ≤ e.1) := by
  obtain ⟨m, hm, hkey⟩ := key_index_of_mem entries b hb
  obtain ⟨m', hm', hkey'⟩ := key_index_of_mem entries b' hb'
  rw [seek_findIdx_eq entries b hs m hm hkey, seek_findIdx_eq entries b' hs m' hm' hkey']
  by_contra hc
  push_neg at hc
  rcases Nat.lt_or_ge m' m with hlt2 | hge
  · have := sorted_key_lt entries hs m' m hlt2 hm
    rw [hkey, hkey'] at this
    exact absurd hlt (not_lt.mpr (le_of_lt this))
  · have hem : m' = m := by omega
    subst hem
    rw [hkey] at hkey'
    exact absurd hkey' (ne_of_lt hlt)

lemma rangeStart_le_one [LinearOrder K] (entries : List (K × Option V)) (bounds : List K)
    (i : Nat) (hi : i ≤ 1) : rangeStart entries bounds i = 0 := by
  unfold rangeStart
  rw [if_pos hi]

lemma rangeStart_of_get [LinearOrder K] (entries : List (K × Option V)) (bounds : List K)
    (i : Nat) (h2 : 2 ≤ i) {b : K} (hget : bounds.get? (i - 2) = some b) :
    rangeStart entries bounds i = entries.findIdx (fun e => b ≤ e.1) + 1 := by
  unfold rangeStart
  rw [if_neg (by omega), hget]

lemma rangeStart_of_none [LinearOrder K] (entries : List (K × Option V)) (bounds : List K)
    (i : Nat) (h2 : 2 ≤ i) (hget : bounds.get? (i - 2) = none) :
    rangeStart entries bounds i = entries.length := by
  unfold rangeStart
  rw [if_neg (by omega), hget]

lemma nextChunk_advance [LinearOrder K] (p : ChunkProducer K V) (n : Nat)
    (hs : (p.raw_iter.entries.map Prod.fst).Pairwise (· < ·))
    (hbs : p.chunk_boundaries.Pairwise (· < ·))
    (hbm : ∀ b ∈ p.chunk_boundaries, b ∈ p.raw_iter.entries.map Prod.fst)
    (hh : ∀ e ∈ p.raw_iter.entries, e.2.isSome = true)
    (h1 : 1 ≤ n) (hn : n < p.len) (hidx : p.index = n)
    (hpos : p.raw_iter.pos = rangeStart p.raw_iter.entries p.chunk_boundaries n) :
    ∃ ops, p.nextChunk = some (Except.ok ops,
      { trunk := p.trunk, chunk_boundaries := p.chunk_boundaries,
        raw_iter := Cursor.mk p.raw_iter.entries
          (rangeStart p.raw_iter.entries p.chunk_boundaries (n + 1)),
        index := n + 1 }) := by
  have hcur : p.raw_iter = Cursor.mk p.raw_iter.entries
      (rangeStart p.raw_iter.entries p.chunk_boundaries n) := by
    rw [← hpos]
  unfold ChunkProducer.nextChunk
  rw [if_neg (by omega), if_neg (by omega)]
  dsimp only
  rw [hidx]
  cases hget : p.chunk_boundaries.get? (n - 1) with
  | some b =>
    have hmemb : b ∈ p.chunk_boundaries := List.get?_mem hget
    have hbk : b ∈ p.raw_iter.entries.map Prod.fst := hbm b hmemb
    obtain ⟨hm, hkey, hltm⟩ := seek_spec p.raw_iter.entries b hs hbk
    have hq : rangeStart p.raw_iter.entries p.chunk_boundaries n ≤
        p.raw_iter.entries.findIdx (fun e => b ≤ e.1) := by
      by_cases hn1 : n = 1
      · rw [rangeStart_le_one p.raw_iter.entries p.chunk_boundaries n (by omega)]
        omega
      · have h2 : 2 ≤ n := by omega
        have hlt1 : n - 1 < p.chunk_boundaries.length := by
          by_contra hc
          rw [List.get?_eq_none.mpr (by omega)] at hget
          exact absurd hget (by simp)
        have hlt2 : n - 2 < p.chunk_boundaries.length := by omega
        have hget2 : p.chunk_boundaries.get? (n - 2) =
            some (p.chunk_boundaries.get ⟨n - 2, hlt2⟩) := List.get?_eq_get hlt2
        have hmem2 : p.chunk_boundaries.get ⟨n - 2, hlt2⟩ ∈ p.chunk_boundaries :=
          List.get_mem _ _ _
        have hgetb : p.chunk_boundaries.get ⟨n - 1, hlt1⟩ = b := by
          have h3 := List.get?_eq_get hlt1
          rw [hget] at h3
          exact (Option.some.inj h3).symm
        have hbb : p.chunk_boundaries.get ⟨n - 2, hlt2⟩ < b := by
          have h4 := (List.pairwise_iff_get.mp hbs) ⟨n - 2, hlt2⟩ ⟨n - 1, hlt1⟩ (by
            simp only [Fin.mk_lt_mk]
            omega)
          rw [hgetb] at h4
          exact h4
        have hmono := seek_mono p.raw_iter.entries _ b hs (hbm _ hmem2) hbk hbb
        rw [rangeStart_of_get p.raw_iter.entries p.chunk_boundaries n h2 hget2]
        omega
    obtain ⟨ops, hstop⟩ := getNextChunk_stops p.raw_iter.entries b
      (rangeStart p.raw_iter.entries p.chunk_boundaries n)
      (p.raw_iter.entries.findIdx (fun e => b ≤ e.1)) hm hkey hltm hh hq
    rw [hcur, hstop]
    refine ⟨ops, ?_⟩
    have hrs1 : rangeStart p.raw_iter.entries p.chunk_boundaries (n + 1) =
        p.raw_iter.entries.findIdx (fun e => b ≤ e.1) + 1 := by
      apply rangeStart_of_get p.raw_iter.entries p.chunk_boundaries (n + 1) (by omega)
      have heq : n + 1 - 2 = n - 1 := by omega
      rw [heq, hget]
    rw [hrs1]
  | none =>
    have hL : p.chunk_boundaries.length ≤ n - 1 := by
      by_contra hc
      rw [List.get?_eq_get (by omega)] at hget
      exact absurd hget (by simp)
    have hLpos : 1 ≤ p.chunk_boundaries.length := by
      by_contra hc
      have hz : p.chunk_boundaries.length = 0 := by omega
      unfold ChunkProducer.len at hn
      rw [if_pos hz] at hn
      omega
    have hnL : n = p.chunk_boundaries.length + 1 := by
      unfold ChunkProducer.len at hn
      rw [if_neg (by omega)] at hn
      omega
    have h2 : 2 ≤ n := by omega
    have hqle : rangeStart p.raw_iter.entries p.chunk_boundaries n ≤
        p.raw_iter.entries.length := by
      have hlt2 : n - 2 < p.chunk_boundaries.length := by omega
      have hget2 : p.chunk_boundaries.get? (n - 2) =
          some (p.chunk_boundaries.get ⟨n - 2, hlt2⟩) := List.get?_eq_get hlt2
      have hmem2 : p.chunk_boundaries.get ⟨n - 2, hlt2⟩ ∈ p.chunk_boundaries :=
        List.get_mem _ _ _
      obtain ⟨hm2, _, _⟩ := seek_spec p.raw_iter.entries _ hs (hbm _ hmem2)
      rw [rangeStart_of_get p.raw_iter.entries p.chunk_boundaries n h2 hget2]
      omega
    obtain ⟨ops, hend⟩ := getNextChunk_to_end p.raw_iter.entries
      (rangeStart p.raw_iter.entries p.chunk_boundaries n) hqle hh
    rw [hcur, hend]
    refine ⟨ops, ?_⟩
    have hrs1 : rangeStart p.raw_iter.entries p.chunk_boundaries (n + 1) =
        p.raw_iter.entries.length := by
      apply rangeStart_of_none p.raw_iter.entries p.chunk_boundaries (n + 1) (by omega)
      have heq : n + 1 - 2 = n - 1 := by omega
      rw [heq, hget]
    rw [hrs1]

lemma iter_next_isSome [DecidableEq K] (it : ChunkIter K V) : (it.next).isSome = true := by
  unfold ChunkIter.next
  by_cases hge : it.producer.index ≥ it.producer.len
  · rw [if_pos hge]
    rfl
  · rw [if_neg hge]
    have h := nextChunk_isSome_of_lt it.producer (by omega)
    cases hnc : it.producer.nextChunk with
    | none =>
      rw [hnc] at h
      simp at h
    | some r =>
      obtain ⟨res, p'⟩ := r
      rfl

lemma step_of_ge [DecidableEq K] (it : ChunkIter K V)
    (h : it.producer.len ≤ it.producer.index) : it.step = (none, it) := by
  unfold ChunkIter.step ChunkIter.next
  rw [if_pos (by omega)]

lemma step_of_lt [DecidableEq K] (it : ChunkIter K V)
    (h : it.producer.index < it.producer.len) :
    ∃ res p', it.producer.nextChunk = some (res, p') ∧
      it.step = (some res, ChunkIter.mk p') := by
  have hso := nextChunk_isSome_of_lt it.producer h
  cases hnc : it.producer.nextChunk with
  | none =>
    rw [hnc] at hso
    simp at hso
  | some r =>
    obtain ⟨res, p'⟩ := r
    refine ⟨res, p', rfl, ?_⟩
    unfold ChunkIter.step ChunkIter.next
    rw [if_neg (by omega), hnc]

lemma step_index [DecidableEq K] (it : ChunkIter K V) :
    ((it.step).2).producer.chunk_boundaries = it.producer.chunk_boundaries ∧
    ((it.step).2).producer.index =
      (if it.producer.index < it.producer.len then it.producer.index + 1
       else it.producer.index) := by
  by_cases h : it.producer.index < it.producer.len
  · obtain ⟨res, p', hnc, hstep⟩ := step_of_lt it h
    rw [hstep, if_pos h]
    have hf := nextChunk_fields hnc
    exact ⟨hf.2.1, hf.2.2.2⟩
  · rw [step_of_ge it (by omega), if_neg h]
    exact ⟨rfl, rfl⟩

lemma stepN_min_index [DecidableEq K] (p : ChunkProducer K V) (h0 : p.index = 0) (n : Nat) :
    ((ChunkIter.mk p).stepN n).producer.chunk_boundaries = p.chunk_boundaries ∧
    ((ChunkIter.mk p).stepN n).producer.index = min n p.len := by
  induction n with
  | zero =>
    refine ⟨rfl, ?_⟩
    have := len_pos p
    simp only [ChunkIter.stepN, h0]
    omega
  | succ n ih =>
    obtain ⟨hb, hi⟩ := ih
    have hlen : ((ChunkIter.mk p).stepN n).producer.len = p.len :=
      len_of_bounds_eq p _ hb
    obtain ⟨hb', hi'⟩ := step_index ((ChunkIter.mk p).stepN n)
    have hstep : (ChunkIter.mk p).stepN (n + 1) = (((ChunkIter.mk p).stepN n).step).2 := rfl
    rw [hstep]
    refine ⟨by rw [hb', hb], ?_⟩
    rw [hi', hi, hlen]
    have := len_pos p
    by_cases hc : n < p.len
    · rw [if_pos (by omega)]
      omega
    · rw [if_neg (by omega)]
      omega

lemma stepN_state [LinearOrder K] (p : ChunkProducer K V)
    (hs : (p.raw_iter.entries.map Prod.fst).Pairwise (· < ·))
    (hbs : p.chunk_boundaries.Pairwise (· < ·))
    (hbm : ∀ b ∈ p.chunk_boundaries, b ∈ p.raw_iter.entries.map Prod.fst)
    (hh : ∀ e ∈ p.raw_iter.entries, e.2.isSome = true)
    (h0 : p.index = 0) (hp0 : p.raw_iter.pos = 0) (n : Nat) (hn : n ≤ p.len) :
    (ChunkIter.mk p).stepN n = ChunkIter.mk
      { trunk := p.trunk, chunk_boundaries := p.chunk_boundaries,
        raw_iter := Cursor.mk p.raw_iter.entries
          (rangeStart p.raw_iter.entries p.chunk_boundaries n),
        index := n } := by
  induction n with
  | zero =>
    rw [rangeStart_le_one p.raw_iter.entries p.chunk_boundaries 0 (by omega)]
    show ChunkIter.mk p = _
    cases p with
    | mk t bnds it idx =>
      cases it with
      | mk es pos =>
        simp only at h0 hp0
        rw [h0, hp0]
  | succ n ih =>
    have hnlt : n < p.len := by omega
    have hstep : (ChunkIter.mk p).stepN (n + 1) = (((ChunkIter.mk p).stepN n).step).2 := rfl
    rw [hstep, ih (by omega)]
    by_cases hn0 : n = 0
    · subst hn0
      have hr0 : rangeStart p.raw_iter.entries p.chunk_boundaries 0 = 0 :=
        rangeStart_le_one _ _ _ (by omega)
      have hr1 : rangeStart p.raw_iter.entries p.chunk_boundaries 1 = 0 :=
        rangeStart_le_one _ _ _ (by omega)
      rw [hr0, hr1]
      unfold ChunkIter.step ChunkIter.next
      rw [if_neg (by
        show ¬ (0 : Nat) ≥ _
        have hl : ChunkProducer.len
            { trunk := p.trunk, chunk_boundaries := p.chunk_boundaries,
              raw_iter := Cursor.mk p.raw_iter.entries 0, index := 0 } = p.len :=
          len_of_bounds_eq p _ rfl
        rw [hl]
        omega)]
      have hnc : ChunkProducer.nextChunk
          { trunk := p.trunk, chunk_boundaries := p.chunk_boundaries,
            raw_iter := Cursor.mk p.raw_iter.entries 0, index := 0 } =
          some (Except.ok p.trunk,
            { trunk := p.trunk, chunk_boundaries := p.chunk_boundaries,
              raw_iter := Cursor.mk p.raw_iter.entries 0, index := 1 }) := by
        unfold ChunkProducer.nextChunk
        rw [if_pos rfl]
      rw [hnc]
    · have h1 : 1 ≤ n := by omega
      obtain ⟨ops, hadv⟩ := nextChunk_advance
        { trunk := p.trunk, chunk_boundaries := p.chunk_boundaries,
          raw_iter := Cursor.mk p.raw_iter.entries
            (rangeStart p.raw_iter.entries p.chunk_boundaries n),
          index := n }
        n hs hbs hbm hh h1 (by
          have hl : ChunkProducer.len
              { trunk := p.trunk, chunk_boundaries := p.chunk_boundaries,
                raw_iter := Cursor.mk p.raw_iter.entries
                  (rangeStart p.raw_iter.entries p.chunk_boundaries n),
                index := n } = p.len := len_of_bounds_eq p _ rfl
          rw [hl]
          omega) rfl rfl
      unfold ChunkIter.step ChunkIter.next
      rw [if_neg (by
        show ¬ n ≥ _
        have hl : ChunkProducer.len
            { trunk := p.trunk, chunk_boundaries := p.chunk_boundaries,
              raw_iter := Cursor.mk p.raw_iter.entries
                (rangeStart p.raw_iter.entries p.chunk_boundaries n),
              index := n } = p.len := len_of_bounds_eq p _ rfl
        rw [hl]
        omega)]
      rw [hadv]


lemma len_eq_add_two (p : ChunkProducer K V) (h : p.chunk_boundaries ≠ []) :
    p.len = p.chunk_boundaries.length + 2 := by
  unfold ChunkProducer.len
  rw [if_neg (by simpa using h)]

lemma len_eq_one (p : ChunkProducer K V) (h : p.chunk_boundaries = []) : p.len = 1 := by
  unfold ChunkProducer.len
  rw [if_pos (by simp [h])]

lemma getNextChunk_fst [DecidableEq K] (c : Cursor K V) (e : Option K) :
    (getNextChunk c e).1 = (gncList (c.entries.drop c.pos) e).1 := by
  unfold getNextChunk
  cases gncList (c.entries.drop c.pos) e with
  | mk res n => rfl

lemma nextChunk_ne_oob [DecidableEq K] {p p' : ChunkProducer K V}
    {r : Except MerkError (List (Op K V))} (h : p.nextChunk = some (r, p')) :
    r ≠ Except.error MerkError.indexOutOfBounds := by
  unfold ChunkProducer.nextChunk at h
  by_cases h0 : p.index = 0
  · rw [if_pos h0] at h
    simp only [Option.some.injEq, Prod.mk.injEq] at h
    rw [← h.1]
    simp
  · rw [if_neg h0] at h
    by_cases hge : p.index ≥ p.len
    · rw [if_pos hge] at h
      exact absurd h (by simp)
    · rw [if_neg hge] at h
      dsimp only at h
      cases hg : getNextChunk p.raw_iter (p.chunk_boundaries.get? (p.index - 1)) with
      | mk res iter =>
        rw [hg] at h
        simp only [Option.some.injEq, Prod.mk.injEq] at h
        rw [← h.1]
        have hfst2 : res = (gncList (p.raw_iter.entries.drop p.raw_iter.pos)
            (p.chunk_boundaries.get? (p.index - 1))).1 := by
          have hfst := getNextChunk_fst p.raw_iter (p.chunk_boundaries.get? (p.index - 1))
          rw [hg] at hfst
          exact hfst
        rw [hfst2]
        exact gncList_ne_oob _ _

lemma stepN_bounds [DecidableEq K] (it : ChunkIter K V) (n : Nat) :
    ((it.stepN n)).producer.chunk_boundaries = it.producer.chunk_boundaries := by
  induction n with
  | zero => rfl
  | succ n ih =>
    have h := (step_index (it.stepN n)).1
    show (((it.stepN n)).step.2).producer.chunk_boundaries = _
    rw [h, ih]

/-- C2: len returns 1 when the boundary keys are empty and their count plus
2 otherwise; construction with a successful walk always succeeds, and over
an empty tree (the walk yields empty trunk operations and has_more false)
it yields the trunk-only producer of length 1.  In the embedding, len is a
pure total function of the producer, so it cannot fail or mutate state. -/
theorem len_formula_and_empty_tree [LinearOrder K]
    (p : ChunkProducer K V) (t : List (Op K V)) (hm : Bool)
    (entries entries2 : List (K × Option V)) :
    (ChunkProducer.new (Except.ok (t, hm)) entries).isOk = true ∧
    ChunkProducer.new (Except.ok (([] : List (Op K V)), false)) entries2 =
      Except.ok
        { trunk := [], chunk_boundaries := [],
          raw_iter := Cursor.mk entries2 0, index := 0 } ∧
    ChunkProducer.len
      { trunk := ([] : List (Op K V)), chunk_boundaries := ([] : List K),
        raw_iter := Cursor.mk entries2 0, index := 0 } = 1 ∧
    p.len = (if p.chunk_boundaries.length = 0 then 1 else p.chunk_boundaries.length + 2) := by
  refine ⟨rfl, rfl, rfl, rfl⟩

lemma chunk_some_inv [LinearOrder K] {p p' : ChunkProducer K V}
    {r : Except MerkError (List (Op K V))} {i : Nat} (hi : i < p.len)
    (h : p.chunk i = some (r, p')) : r ≠ Except.error MerkError.indexOutOfBounds := by
  rw [chunk_valid_eq p i hi] at h
  exact nextChunk_ne_oob h

/-- C3: chunk with an index at or past len returns the recoverable
IndexOutOfBounds error with the producer unchanged (no panic, no chunk
bytes), and for every index below len it returns a value (no panic) that is
never the IndexOutOfBounds error. -/
theorem chunk_index_bounds_check [LinearOrder K] (p : ChunkProducer K V) (i : Nat) :
    (p.len ≤ i → p.chunk i = some (Except.error MerkError.indexOutOfBounds, p)) ∧
    (i < p.len → (p.chunk i).isSome = true ∧
      chunkBytes p i ≠ some (Except.error MerkError.indexOutOfBounds)) := by
  constructor
  · intro hge
    exact chunk_oob p i hge
  · intro hi
    refine ⟨chunk_isSome p i, ?_⟩
    obtain ⟨val, hval⟩ := Option.isSome_iff_exists.mp (chunk_isSome p i)
    obtain ⟨res, p2⟩ := val
    have hne := chunk_some_inv hi hval
    unfold chunkBytes
    rw [hval]
    simpa using hne

/-- C7: the sequential production step panics (modelled as none) exactly
when invoked with the index at or past len, and this panic is unreachable
from the public interface: chunk never evaluates to none for any index, and
the iterator next never evaluates to none. -/
theorem next_chunk_panic_unreachable [LinearOrder K]
    (p q : ChunkProducer K V) (i : Nat) (it : ChunkIter K V)
    (hge : q.len ≤ q.index) :
    q.nextChunk = none ∧ p.chunk i ≠ none ∧ it.next ≠ none := by
  refine ⟨nextChunk_eq_none_of_ge q hge, ?_, ?_⟩
  · intro hc
    have := chunk_isSome p i
    rw [hc] at this
    simp at this
  · intro hc
    have := iter_next_isSome it
    rw [hc] at this
    simp at this

/-- C8: the size hint of the chunk iterator is the total chunk count as
both lower and upper bound, and it is unchanged by any number of iteration
steps (it reports total length, never remaining count). -/
theorem size_hint_total_not_remaining [DecidableEq K] (it : ChunkIter K V) (n : Nat) :
    it.sizeHint = (it.producer.len, some it.producer.len) ∧
    (it.stepN n).sizeHint = it.sizeHint := by
  refine ⟨rfl, ?_⟩
  unfold ChunkIter.sizeHint
  rw [len_of_bounds_eq it.producer (it.stepN n).producer (stepN_bounds it n)]

/-- C9: a chunk call that fails the bounds check returns the error with the
producer state exactly as it was: the index is not stored and the cursor is
not moved, so subsequent calls behave as if the failed call never
happened. -/
theorem chunk_oob_state_unchanged [LinearOrder K] (p : ChunkProducer K V) (i : Nat)
    (hi : p.len ≤ i) :
    p.chunk i = some (Except.error MerkError.indexOutOfBounds, p) ∧
    chunkStep p i = p := by
  refine ⟨chunk_oob p i hi, ?_⟩
  unfold chunkStep
  rw [chunk_oob p i hi]

/-- C10: iteration from a fresh producer terminates: each of the first len
pulls yields an item (also when the chunk build inside it fails, since the
index is advanced before the build is attempted), and every pull from the
len-th on yields none, forever. -/
theorem iteration_yields_len_items [DecidableEq K] (p : ChunkProducer K V) (j : Nat)
    (h0 : p.index = 0) :
    (j < p.len → (ChunkIter.itemAt (ChunkIter.mk p) j).isSome = true) ∧
    (p.len ≤ j → ChunkIter.itemAt (ChunkIter.mk p) j = none) := by
  obtain ⟨hb, hi⟩ := stepN_min_index p h0 j
  have hlen : ((ChunkIter.mk p).stepN j).producer.len = p.len := len_of_bounds_eq p _ hb
  constructor
  · intro hj
    have hidx : ((ChunkIter.mk p).stepN j).producer.index <
        ((ChunkIter.mk p).stepN j).producer.len := by
      rw [hi, hlen]
      omega
    obtain ⟨res, p', hnc, hstep⟩ := step_of_lt _ hidx
    unfold ChunkIter.itemAt
    rw [hstep]
    rfl
  · intro hj
    have hidx : ((ChunkIter.mk p).stepN j).producer.len ≤
        ((ChunkIter.mk p).stepN j).producer.index := by
      rw [hi, hlen]
      omega
    unfold ChunkIter.itemAt
    rw [step_of_ge _ hidx]

lemma chunkBytes_ext [LinearOrder K] (p q : ChunkProducer K V)
    (ht : q.trunk = p.trunk) (hbq : q.chunk_boundaries = p.chunk_boundaries)
    (he : q.raw_iter.entries = p.raw_iter.entries) (i : Nat) :
    chunkBytes q i = chunkBytes p i := by
  have hlen : q.len = p.len := len_of_bounds_eq p q hbq
  by_cases hi : i < p.len
  · unfold chunkBytes
    rw [chunk_valid_eq p i hi, chunk_valid_eq q i (by omega), ht, hbq, he]
  · unfold chunkBytes
    rw [chunk_oob p i (by omega), chunk_oob q i (by omega)]
    rfl

lemma chunkStep_fields [LinearOrder K] (p : ChunkProducer K V) (i : Nat) :
    (chunkStep p i).trunk = p.trunk ∧
    (chunkStep p i).chunk_boundaries = p.chunk_boundaries ∧
    (chunkStep p i).raw_iter.entries = p.raw_iter.entries := by
  unfold chunkStep
  cases hc : p.chunk i with
  | none => exact ⟨rfl, rfl, rfl⟩
  | some r =>
    obtain ⟨res, p'⟩ := r
    exact chunk_fields hc

lemma chunkCalls_fields [LinearOrder K] (p : ChunkProducer K V) (calls : List Nat) :
    (chunkCalls p calls).trunk = p.trunk ∧
    (chunkCalls p calls).chunk_boundaries = p.chunk_boundaries ∧
    (chunkCalls p calls).raw_iter.entries = p.raw_iter.entries := by
  induction calls generalizing p with
  | nil => exact ⟨rfl, rfl, rfl⟩
  | cons c cs ih =>
    have hstep := chunkStep_fields p c
    have hrest := ih (chunkStep p c)
    have hc : chunkCalls p (c :: cs) = chunkCalls (chunkStep p c) cs := rfl
    rw [hc]
    exact ⟨hrest.1.trans hstep.1, hrest.2.1.trans hstep.2.1, hrest.2.2.trans hstep.2.2⟩

lemma filterMap_pushNodeKeys (t : List (Op K V)) :
    (t.filterMap fun op => match op with
      | Op.push (Node.kv key _) => some key
      | _ => none) = pushNodeKeysSpec t := by
  induction t with
  | nil => rfl
  | cons op rest ih =>
    cases op with
    | push n =>
      cases n with
      | hash h => simpa [List.filterMap_cons, pushNodeKeysSpec] using ih
      | kvhash h => simpa [List.filterMap_cons, pushNodeKeysSpec] using ih
      | kv k v => simpa [List.filterMap_cons, pushNodeKeysSpec] using ih
    | parent => simpa [List.filterMap_cons, pushNodeKeysSpec] using ih
    | child => simpa [List.filterMap_cons, pushNodeKeysSpec] using ih

/-- C4: for a valid index, indices 0 and 1 reposition the cursor to the
first entry of the store before producing the chunk, a larger index seeks
to the boundary key at position index minus 2 and advances exactly one step
past it (and that boundary lookup always succeeds), and the whole call is a
function of the index, trunk, boundary keys and snapshot only, independent
of the index and cursor position left by prior calls. -/
theorem chunk_repositions_cursor [LinearOrder K] (p : ChunkProducer K V)
    (i j m : Nat) (b : K) (hi : i < p.len)
    (hb : 2 ≤ i → p.chunk_boundaries.get? (i - 2) = some b) :
    (i = 0 ∨ i = 1 → p.chunk i = ChunkProducer.nextChunk
      { trunk := p.trunk, chunk_boundaries := p.chunk_boundaries,
        raw_iter := p.raw_iter.seekToFirst, index := i }) ∧
    (2 ≤ i → p.chunk i = ChunkProducer.nextChunk
      { trunk := p.trunk, chunk_boundaries := p.chunk_boundaries,
        raw_iter := (p.raw_iter.seek b).next, index := i }) ∧
    (2 ≤ i → (p.chunk_boundaries.get? (i - 2)).isSome = true) ∧
    ChunkProducer.chunk
      { trunk := p.trunk, chunk_boundaries := p.chunk_boundaries,
        raw_iter := Cursor.mk p.raw_iter.entries m, index := j } i = p.chunk i := by
  refine ⟨?_, ?_, ?_, ?_⟩
  · intro h01
    rw [chunk_valid_eq p i hi,
      rangeStart_le_one p.raw_iter.entries p.chunk_boundaries i (by omega)]
    rfl
  · intro h2
    rw [chunk_valid_eq p i hi,
      rangeStart_of_get p.raw_iter.entries p.chunk_boundaries i h2 (hb h2)]
    rfl
  · intro h2
    rw [hb h2]
    rfl
  · rw [chunk_valid_eq p i hi, chunk_valid_eq _ i (by exact hi)]

/-- C5: when the trunk walk reports elided subtrees, the producer built by
new has exactly the keys of the push-node operations of the trunk, in the
order they occur in the trunk, as its boundary keys; when it reports none,
the boundary keys are empty; and, granted the external trunk-builder
guarantee that a trunk with elided subtrees contains at least one push-node
operation, the boundary keys are empty exactly when the whole tree fits in
the trunk (has_more is false). -/
theorem new_boundary_keys_from_trunk [LinearOrder K]
    (t : List (Op K V)) (hm : Bool) (entries : List (K × Option V))
    (p : ChunkProducer K V)
    (hnew : ChunkProducer.new (Except.ok (t, hm)) entries = Except.ok p)
    (hkv : hm = true → pushNodeKeysSpec t ≠ []) :
    (hm = true → p.chunk_boundaries = pushNodeKeysSpec t) ∧
    (hm = false → p.chunk_boundaries = []) ∧
    (p.chunk_boundaries = [] ↔ hm = false) := by
  have hb : p.chunk_boundaries = (if hm = true then pushNodeKeysSpec t else []) := by
    unfold ChunkProducer.new at hnew
    dsimp only at hnew
    have hrec := Except.ok.inj hnew
    rw [← hrec]
    cases hm with
    | true => simp [filterMap_pushNodeKeys]
    | false => simp
  cases hm with
  | true =>
    rw [hb]
    simp only [if_pos rfl]
    refine ⟨fun _ => rfl, fun h => absurd h (by simp), ?_⟩
    constructor
    · intro he
      exact absurd he (hkv rfl)
    · intro hf
      exact absurd hf (by simp)
  | false =>
    rw [hb]
    simp

/-- C1: the chunk of a valid index is the same whether fetched by random
access from any producer state over the same snapshot (so interleaved,
repeated random-access calls always return the bytes the first call for
that index returned) or yielded as the i-th item of sequential iteration
over a fresh producer, for a well-formed snapshot: ascending keys,
ascending boundary keys drawn from the snapshot, all entries decodable. -/
theorem chunk_random_sequential_agree [LinearOrder K]
    (p : ChunkProducer K V) (i j m : Nat) (calls : List Nat)
    (hWF : WF p) (h0 : p.index = 0) (hp0 : p.raw_iter.pos = 0) (hi : i < p.len) :
    ChunkProducer.chunk
      { trunk := p.trunk, chunk_boundaries := p.chunk_boundaries,
        raw_iter := Cursor.mk p.raw_iter.entries m, index := j } i = p.chunk i ∧
    chunkBytes (chunkCalls p calls) i = chunkBytes p i ∧
    ChunkIter.itemAt (ChunkIter.mk p) i = chunkBytes p i := by
  obtain ⟨hs, hbs, hbm, hh⟩ := hWF
  refine ⟨?_, ?_, ?_⟩
  · rw [chunk_valid_eq p i hi, chunk_valid_eq _ i (by exact hi)]
  · have hf := chunkCalls_fields p calls
    exact chunkBytes_ext p (chunkCalls p calls) hf.1 hf.2.1 hf.2.2 i
  · have hst := stepN_state p hs hbs hbm hh h0 hp0 i (le_of_lt hi)
    unfold ChunkIter.itemAt
    rw [hst]
    obtain ⟨res, p', hnc, hstep⟩ := step_of_lt (ChunkIter.mk
      { trunk := p.trunk, chunk_boundaries := p.chunk_boundaries,
        raw_iter := Cursor.mk p.raw_iter.entries
          (rangeStart p.raw_iter.entries p.chunk_boundaries i),
        index := i }) (by exact hi)
    rw [hstep]
    unfold chunkBytes
    rw [chunk_valid_eq p i hi]
    rw [hnc]
    rfl

/-- C6 (amended): after a successful chunk call at a valid index i on a
well-formed producer, and after a successful sequential production step run
from the state the cursor invariant prescribes for index i, the index
equals i plus 1 and the cursor sits at the start position of the key range
of chunk i plus 1; when i is the last index and boundary keys exist that
position is past the last entry (the cursor is exhausted); in the
trunk-only case (no boundary keys, a single chunk) the cursor stays at the
first entry of the store instead of being exhausted. -/
theorem chunk_advances_index_and_cursor [LinearOrder K]
    (p q p' q' : ChunkProducer K V) (i : Nat) (rp rq : List (Op K V))
    (hWF : WF p) (hi : i < p.len)
    (hq : q =
      { trunk := p.trunk, chunk_boundaries := p.chunk_boundaries,
        raw_iter := Cursor.mk p.raw_iter.entries
          (rangeStart p.raw_iter.entries p.chunk_boundaries i),
        index := i })
    (hchunk : p.chunk i = some (Except.ok rp, p'))
    (hqn : q.nextChunk = some (Except.ok rq, q')) :
    q'.index = i + 1 ∧
    q'.raw_iter.pos = rangeStart p.raw_iter.entries p.chunk_boundaries (i + 1) ∧
    p'.index = i + 1 ∧
    p'.raw_iter.pos = rangeStart p.raw_iter.entries p.chunk_boundaries (i + 1) ∧
    (i = p.len - 1 → p.chunk_boundaries ≠ [] →
      p'.raw_iter.entries.length ≤ p'.raw_iter.pos) ∧
    (p.chunk_boundaries = [] → p'.raw_iter.pos = 0) := by
  obtain ⟨hs, hbs, hbm, hh⟩ := hWF
  subst hq
  rw [chunk_valid_eq p i hi] at hchunk
  have hpq : p' = q' := by
    rw [hchunk] at hqn
    have h2 := Option.some.inj hqn
    simp only [Prod.mk.injEq] at h2
    exact h2.2
  have hmain : q'.index = i + 1 ∧ q'.raw_iter.pos =
      rangeStart p.raw_iter.entries p.chunk_boundaries (i + 1) ∧
      q'.raw_iter.entries = p.raw_iter.entries := by
    by_cases hi0 : i = 0
    · subst hi0
      have hnc0 : ChunkProducer.nextChunk
          { trunk := p.trunk, chunk_boundaries := p.chunk_boundaries,
            raw_iter := Cursor.mk p.raw_iter.entries
              (rangeStart p.raw_iter.entries p.chunk_boundaries 0),
            index := 0 } = some (Except.ok p.trunk,
          { trunk := p.trunk, chunk_boundaries := p.chunk_boundaries,
            raw_iter := Cursor.mk p.raw_iter.entries
              (rangeStart p.raw_iter.entries p.chunk_boundaries 0),
            index := 1 }) := by
        unfold ChunkProducer.nextChunk
        rw [if_pos rfl]
      rw [hnc0] at hqn
      have h2 := Option.some.inj hqn
      simp only [Prod.mk.injEq] at h2
      rw [← h2.2]
      refine ⟨rfl, ?_, rfl⟩
      rw [rangeStart_le_one p.raw_iter.entries p.chunk_boundaries 0 (by omega),
        rangeStart_le_one p.raw_iter.entries p.chunk_boundaries 1 (by omega)]
    · obtain ⟨ops, hadv⟩ := nextChunk_advance
        { trunk := p.trunk, chunk_boundaries := p.chunk_boundaries,
          raw_iter := Cursor.mk p.raw_iter.entries
            (rangeStart p.raw_iter.entries p.chunk_boundaries i),
          index := i } i hs hbs hbm hh (by omega) (by exact hi) rfl rfl
      rw [hadv] at hqn
      have h2 := Option.some.inj hqn
      simp only [Prod.mk.injEq] at h2
      rw [← h2.2]
      exact ⟨rfl, rfl, rfl⟩
  obtain ⟨hq1, hq2, hq3⟩ := hmain
  subst hpq
  refine ⟨hq1, hq2, hq1, hq2, ?_, ?_⟩
  · intro hlast hne
    have hl2 := len_eq_add_two p hne
    have hLpos : 0 < p.chunk_boundaries.length := List.length_pos.mpr hne
    have hi1 : i + 1 = p.len := by
      have := len_pos p
      omega
    have hrs : rangeStart p.raw_iter.entries p.chunk_boundaries (i + 1) =
        p.raw_iter.entries.length := by
      rw [hi1]
      apply rangeStart_of_none _ _ _ (by omega)
      apply List.get?_eq_none.mpr
      omega
    rw [hq2, hrs, hq3]
  · intro hempty
    have hl1 := len_eq_one p hempty
    have hi0 : i = 0 := by omega
    rw [hq2, hi0]
    rw [rangeStart_le_one p.raw_iter.entries p.chunk_boundaries 1 (by omega)]

/-- C6 counterexample: over a nonempty one-entry snapshot whose whole tree
fits in the trunk (no boundary keys, so a single chunk), the successful
chunk call at the last valid index 0 leaves the cursor at position 0,
pointing at the first entry of the snapshot, not exhausted as the claim
demands for the last index. -/
theorem chunk_last_index_cursor_not_exhausted :
    WF trunkOnlyProducer ∧ trunkOnlyProducer.len = 1 ∧
    chunkBytes trunkOnlyProducer 0 = some (Except.ok []) ∧
    (chunkStep trunkOnlyProducer 0).raw_iter.pos <
      (chunkStep trunkOnlyProducer 0).raw_iter.entries.length := by
  refine ⟨by decide, rfl, rfl, by decide⟩

/-- Witness for C1 at the four-chunk sample producer, index 2, with prior
state index 3 and cursor position 4, interleaved calls 1, 3, 0, 2. -/
theorem chunk_random_sequential_agree_w :
    ChunkProducer.chunk
      { trunk := sampleProducer.trunk, chunk_boundaries := sampleProducer.chunk_boundaries,
        raw_iter := Cursor.mk sampleProducer.raw_iter.entries 4, index := 3 } 2 =
      sampleProducer.chunk 2 ∧
    chunkBytes (chunkCalls sampleProducer [1, 3, 0, 2]) 2 = chunkBytes sampleProducer 2 ∧
    ChunkIter.itemAt (ChunkIter.mk sampleProducer) 2 = chunkBytes sampleProducer 2 :=
  chunk_random_sequential_agree sampleProducer 2 3 4 [1, 3, 0, 2] (by decide) rfl rfl (by decide)

/-- Witness for C2 at the sample snapshot and the empty snapshot. -/
theorem len_formula_and_empty_tree_w :
    (ChunkProducer.new (Except.ok (sampleTrunk, true)) sampleEntries).isOk = true ∧
    ChunkProducer.new (Except.ok (([] : List (Op Nat Nat)), false))
        ([] : List (Nat × Option Nat)) =
      Except.ok
        { trunk := [], chunk_boundaries := [],
          raw_iter := Cursor.mk ([] : List (Nat × Option Nat)) 0, index := 0 } ∧
    ChunkProducer.len
      { trunk := ([] : List (Op Nat Nat)), chunk_boundaries := ([] : List Nat),
        raw_iter := Cursor.mk ([] : List (Nat × Option Nat)) 0, index := 0 } = 1 ∧
    sampleProducer.len =
      (if sampleProducer.chunk_boundaries.length = 0 then 1
       else sampleProducer.chunk_boundaries.length + 2) :=
  len_formula_and_empty_tree sampleProducer sampleTrunk true sampleEntries []

/-- Witness for C3: index 9 is out of bounds and errs recoverably, index 2
is in bounds and is never the out-of-bounds error. -/
theorem chunk_index_bounds_check_w :
    sampleProducer.chunk 9 = some (Except.error MerkError.indexOutOfBounds, sampleProducer) ∧
    ((sampleProducer.chunk 2).isSome = true ∧
      chunkBytes sampleProducer 2 ≠ some (Except.error MerkError.indexOutOfBounds)) :=
  ⟨(chunk_index_bounds_check sampleProducer 9).1 (by decide),
   (chunk_index_bounds_check sampleProducer 2).2 (by decide)⟩

/-- Witness for C4 at index 2: the call seeks boundary key 2 and advances
one step, the boundary lookup succeeds, and the call is independent of a
prior index 3 and cursor position 1. -/
theorem chunk_repositions_cursor_w :
    sampleProducer.chunk 2 = ChunkProducer.nextChunk
      { trunk := sampleProducer.trunk, chunk_boundaries := sampleProducer.chunk_boundaries,
        raw_iter := (sampleProducer.raw_iter.seek 2).next, index := 2 } ∧
    (sampleProducer.chunk_boundaries.get? 0).isSome = true ∧
    ChunkProducer.chunk
      { trunk := sampleProducer.trunk, chunk_boundaries := sampleProducer.chunk_boundaries,
        raw_iter := Cursor.mk sampleProducer.raw_iter.entries 1, index := 3 } 2 =
      sampleProducer.chunk 2 :=
  ⟨(chunk_repositions_cursor sampleProducer 2 3 1 2 (by decide) (fun _ => rfl)).2.1 (by omega),
   (chunk_repositions_cursor sampleProducer 2 3 1 2 (by decide) (fun _ => rfl)).2.2.1 (by omega),
   (chunk_repositions_cursor sampleProducer 2 3 1 2 (by decide) (fun _ => rfl)).2.2.2⟩

/-- Witness for C5 at the sample trunk with elided subtrees. -/
theorem new_boundary_keys_from_trunk_w :
    (true = true → sampleProducer.chunk_boundaries = pushNodeKeysSpec sampleTrunk) ∧
    (true = false → sampleProducer.chunk_boundaries = []) ∧
    (sampleProducer.chunk_boundaries = [] ↔ true = false) :=
  new_boundary_keys_from_trunk sampleTrunk true sampleEntries sampleProducer (by decide)
    (fun _ => by decide)

/-- Witness for C6 (amended) at index 2 of the sample producer. -/
theorem chunk_advances_index_and_cursor_w :
    samplePost.index = 3 ∧
    samplePost.raw_iter.pos =
      rangeStart sampleProducer.raw_iter.entries sampleProducer.chunk_boundaries 3 ∧
    samplePost.index = 3 ∧
    samplePost.raw_iter.pos =
      rangeStart sampleProducer.raw_iter.entries sampleProducer.chunk_boundaries 3 ∧
    (2 = sampleProducer.len - 1 → sampleProducer.chunk_boundaries ≠ [] →
      samplePost.raw_iter.entries.length ≤ samplePost.raw_iter.pos) ∧
    (sampleProducer.chunk_boundaries = [] → samplePost.raw_iter.pos = 0) :=
  chunk_advances_index_and_cursor sampleProducer samplePre2 samplePost samplePost 2
    [Op.push (Node.kv 3 30)] [Op.push (Node.kv 3 30)]
    (by decide) (by decide) (by decide) (by decide) (by decide)

/-- Witness for C7: a producer with its index past the end panics in the
sequential step, while chunk and the iterator next never do. -/
theorem next_chunk_panic_unreachable_w :
    ChunkProducer.nextChunk
      { trunk := sampleTrunk, chunk_boundaries := [2, 4],
        raw_iter := Cursor.mk sampleEntries 0, index := 7 } = none ∧
    sampleProducer.chunk 1 ≠ none ∧
    (ChunkIter.mk sampleProducer).next ≠ none :=
  next_chunk_panic_unreachable sampleProducer
    { trunk := sampleTrunk, chunk_boundaries := [2, 4],
      raw_iter := Cursor.mk sampleEntries 0, index := 7 }
    1 (ChunkIter.mk sampleProducer) (by decide)

/-- Witness for C8 after three iteration steps. -/
theorem size_hint_total_not_remaining_w :
    (ChunkIter.mk sampleProducer).sizeHint =
      ((ChunkIter.mk sampleProducer).producer.len,
        some (ChunkIter.mk sampleProducer).producer.len) ∧
    ((ChunkIter.mk sampleProducer).stepN 3).sizeHint =
      (ChunkIter.mk sampleProducer).sizeHint :=
  size_hint_total_not_remaining (ChunkIter.mk sampleProducer) 3

/-- Witness for C9 at the out-of-bounds index 4. -/
theorem chunk_oob_state_unchanged_w :
    sampleProducer.chunk 4 = some (Except.error MerkError.indexOutOfBounds, sampleProducer) ∧
    chunkStep sampleProducer 4 = sampleProducer :=
  chunk_oob_state_unchanged sampleProducer 4 (by decide)

/-- Witness for C10: the fourth pull still yields an item, the fifth and
the eighth pulls yield none. -/
theorem iteration_yields_len_items_w :
    (ChunkIter.itemAt (ChunkIter.mk sampleProducer) 3).isSome = true ∧
    ChunkIter.itemAt (ChunkIter.mk sampleProducer) 4 = none ∧
    ChunkIter.itemAt (ChunkIter.mk sampleProducer) 7 = none :=
  ⟨(iteration_yields_len_items sampleProducer 3 rfl).1 (by decide),
   (iteration_yields_len_items sampleProducer 4 rfl).2 (by decide),
   (iteration_yields_len_items sampleProducer 7 rfl).2 (by decide)⟩

end MerkChunks
